import Mathlib

/-!
Shallow embedding of the taxonomy normalization and detection
deduplication core of the hit-archlens repository.

Sources embedded here:
- aws-service-mapper/src/aws_service_mapper/canon.py (canon)
- aws_cv_clip/src/taxonomy.py (Taxonomy.from_csv, Taxonomy.canon,
  Taxonomy.normalize, Taxonomy.contains_blacklist)
- aws_cv_clip/src/aws_diagram_auto_labeler.py (_nms, the scoring part of
  analyze_image)
- aws_llm_autolabel/src/utils/taxonomy.py (Taxonomy.from_csv,
  Taxonomy.normalize; embedded as LlmTaxonomy)
- aws_llm_autolabel/src/llm_auto_labeler.py (_normalize_detection)

Modeling conventions:
- Python strings are Lean String (a list of Chars); whitespace is modeled
  as space, tab, newline and carriage return (the ASCII core of \s);
  lower-casing is ASCII lower-casing, matching the repository data.
- Python floats are modeled as exact rationals.
- Python dicts are association lists with in-place-update insert, which
  preserves first-insertion key order exactly as CPython dicts do.
- pandas NaN cells are Option.none; Python str(nan) is the string "nan".
- rapidfuzz process.extractOne(query, choices, scorer=fuzz.WRatio) is
  modeled by extractOne over an explicit scorer parameter; it keeps the
  first choice of maximal score and returns none only on an empty choice
  list, exactly like the library with its default score cutoff.
- numpy argsort (insertion sort on the small arrays involved, hence
  stable ascending) followed by [::-1] is sortNumpy; Python sorted with a
  negated key (stable, descending) is sortPy.
- Recursions whose argument shrinks non-structurally carry an explicit
  fuel argument, always called at a fuel that is provably sufficient.
-/

namespace ArchLens

/-- Whitespace test used for stripping, splitting and trimming. -/
def isWs (c : Char) : Bool := c = ' ' ∨ c = '\t' ∨ c = '\n' ∨ c = '\r'

/-- ASCII lower-casing of one character. -/
def lowerChar (c : Char) : Char :=
  if 65 ≤ c.toNat ∧ c.toNat ≤ 90 then Char.ofNat (c.toNat + 32) else c

/-- ASCII lower-casing of a character list. -/
def lowerL (l : List Char) : List Char := l.map lowerChar

/-- Both-ends whitespace trim, as Python str.strip. -/
def trimL (l : List Char) : List Char :=
  ((l.dropWhile isWs).reverse.dropWhile isWs).reverse

/-- Scan for the next unescaped close paren with no newline before it,
returning the remainder after it; models one lazy match of the regex
used by canon (a dot does not cross a newline). -/
def findClose : Nat → List Char → Option (List Char)
  | 0, _ => none
  | _, [] => none
  | fuel+1, c :: cs =>
    if c = ')' then some cs
    else if c = '\n' then none
    else findClose fuel cs

/-- Removal of every parenthesized block, as re.sub of the lazy
paren-matching pattern with the empty string: left to right, each open
paren that has a close paren after it (with no intervening newline) is
dropped together with everything up to that close paren; an unmatched
open paren is kept. -/
def stripParens : Nat → List Char → List Char
  | 0, l => l
  | _, [] => []
  | fuel+1, c :: cs =>
    if c = '(' then
      match findClose cs.length cs with
      | some rest => stripParens fuel rest
      | none => c :: stripParens fuel cs
    else c :: stripParens fuel cs

/-- Case-insensitive removal of a fixed word from the front, returning
the remainder on success. The word is given in lower case. -/
def dropPfxCI : List Char → List Char → Option (List Char)
  | [], l => some l
  | _, [] => none
  | p :: ps, c :: cs => if lowerChar c = p then dropPfxCI ps cs else none

/-- One alternative of the leading-vendor-word pattern: the word must be
followed by at least one whitespace character, and the whole match
(word plus the maximal whitespace run) is removed. -/
def tryPfx (word : List Char) (l : List Char) : Option (List Char) :=
  match dropPfxCI word l with
  | some (c :: cs) => if isWs c then some ((c :: cs).dropWhile isWs) else none
  | _ => none

/-- Removal of a single leading case-insensitive amazon-or-aws word
followed by whitespace, as the anchored re.sub in canon; the amazon
alternative is tried first. -/
def stripAwsPfx (l : List Char) : List Char :=
  match tryPfx ("amazon").data l with
  | some r => r
  | none =>
    match tryPfx ("aws").data l with
    | some r => r
    | none => l

/-- Character replacements of canon: ampersand becomes the word and,
en dash and em dash become a hyphen, then hyphen, underscore and slash
become a space. -/
def replaceChars : List Char → List Char
  | [] => []
  | c :: cs =>
    if c = '&' then 'a' :: 'n' :: 'd' :: replaceChars cs
    else if c = '–' ∨ c = '—' ∨ c = '-' ∨ c = '_' ∨ c = '/' then ' ' :: replaceChars cs
    else c :: replaceChars cs

/-- Worker for whitespace splitting with an accumulator holding the
current token reversed. -/
def splitWsGo : List Char → List Char → List (List Char)
  | [], acc => if acc = [] then [] else [acc.reverse]
  | c :: cs, acc =>
    if isWs c then
      if acc = [] then splitWsGo cs []
      else acc.reverse :: splitWsGo cs []
    else splitWsGo cs (c :: acc)

/-- Split on whitespace runs dropping empty tokens, as re.split on a
whitespace-run pattern followed by the truthiness filter in canon. -/
def splitWs (l : List Char) : List (List Char) := splitWsGo l []

/-- Join tokens with single spaces. -/
def joinSp : List (List Char) → List Char
  | [] => []
  | [t] => t
  | t :: ts => t ++ ' ' :: joinSp ts

/-- Collapse of every whitespace run to a single space, as re.sub of a
whitespace-run pattern with one space. -/
def collapseWs : List Char → List Char
  | [] => []
  | [c] => if isWs c then [' '] else [c]
  | c :: d :: rest =>
    if isWs c && isWs d then collapseWs (d :: rest)
    else (if isWs c then ' ' else c) :: collapseWs (d :: rest)

/-- Token phase of canon: strip parenthesized blocks, strip a leading
vendor word, apply character replacements, split into whitespace-free
tokens and drop the stop words. -/
def canonTokens (drop : List (List Char)) (l : List Char) : List (List Char) :=
  (splitWs (replaceChars (stripAwsPfx (stripParens l.length l)))).filter
    (fun w => !decide (lowerL w ∈ drop))

/-- Full canonicalization pipeline of canon over a character list,
parameterized by the stop-word set: the token phase, then rejoin with
single spaces, collapse whitespace runs, trim and lower-case. -/
def canonList (drop : List (List Char)) (l : List Char) : List Char :=
  lowerL (trimL (collapseWs (joinSp (canonTokens drop l))))

/-- String-level canonicalization parameterized by the stop-word set. -/
def canonWith (drop : List (List Char)) (s : String) : String :=
  String.mk (canonList drop s.data)

/-- Stop words of the standalone canon module (aws-service-mapper). -/
def mapperDropWords : List (List Char) :=
  [("service").data, ("services").data, ("family").data]

/-- Stop words of the CLIP-pipeline taxonomy module, which extends the
standalone set with product words. -/
def cvDropWords : List (List Char) :=
  [("service").data, ("services").data, ("family").data,
   ("product").data, ("products").data]

/-- The canon function of aws-service-mapper. -/
def canon (s : String) : String := canonWith mapperDropWords s

/-- Python str.strip on a String. -/
def pyStrip (s : String) : String := String.mk (trimL s.data)

/-- Python str.lower on a String. -/
def pyLower (s : String) : String := String.mk (lowerL s.data)

/-- Worker for splitting on the pipe character, keeping empty pieces as
Python str.split does. -/
def splitPipeGo : List Char → List Char → List (List Char)
  | [], acc => [acc.reverse]
  | c :: cs, acc =>
    if c = '|' then acc.reverse :: splitPipeGo cs []
    else splitPipeGo cs (c :: acc)

/-- Python s.split on the pipe character. -/
def splitPipe (s : String) : List String :=
  (splitPipeGo s.data []).map String.mk

/-- Substring test, as the Python in operator on strings. -/
def isSubstr (p s : String) : Bool :=
  (List.range (s.data.length + 1)).any (fun i => p.data.isPrefixOf (s.data.drop i))

/-- Association-list insert with in-place value update, matching CPython
dict assignment: an existing key keeps its position and gets the new
value, a new key is appended. -/
def insertKV {β : Type} (k : String) (v : β) : List (String × β) → List (String × β)
  | [] => [(k, v)]
  | (k', v') :: rest =>
    if k' = k then (k, v) :: rest else (k', v') :: insertKV k v rest

/-- Association-list lookup, matching Python dict indexing. -/
def lookupKV {β : Type} (k : String) : List (String × β) → Option β
  | [] => none
  | (k', v) :: rest => if k' = k then some v else lookupKV k rest

/-- Keys of an association list in insertion order, as list(d.keys()). -/
def keysOf {β : Type} (m : List (String × β)) : List String :=
  m.map (fun e => e.1)

/-- Values of an association list in insertion order. -/
def valuesOf {β : Type} (m : List (String × β)) : List β :=
  m.map (fun e => e.2)

/-- One tabular taxonomy row: the canonical-name cell and the optional
pipe-delimited alias cell; none models a missing or NaN cell. -/
structure Row where
  nameCell : Option String
  aliasCell : Option String

/-- Python str applied to a cell value: a NaN cell prints as nan. -/
def cellStr : Option String → String
  | none => "nan"
  | some s => s

/-- Alias-cell parsing: split on pipes, strip each piece, drop empties;
a missing or NaN alias cell contributes no aliases. -/
def parseAliases : Option String → List String
  | none => []
  | some a => ((splitPipe a).map pyStrip).filter (fun x => !decide (x = ""))

/-- First-occurrence deduplication, modeling the set built from the
canonical name and the aliases of a row. -/
def dedupFirst (l : List String) : List String :=
  l.foldl (fun acc x => if x ∈ acc then acc else acc ++ [x]) []

/-- Processing of one CSV row in from_csv: register the stripped
canonical cell and every alias under the canonical name, keying the
alias map by the lower-cased strings. -/
def rowStep (acc : List (String × List String) × List (String × String)) (r : Row) :
    List (String × List String) × List (String × String) :=
  let canonS := pyStrip (cellStr r.nameCell)
  let aliases := parseAliases r.aliasCell
  let keys := dedupFirst (canonS :: aliases)
  (insertKV canonS keys acc.1,
   keys.foldl (fun m k => insertKV (pyLower k) canonS m) acc.2)

/-- Optional rule files of the CLIP-pipeline taxonomy: group remap,
blacklist terms, and extra alias-to-canonical pairs; a missing rules
directory is the record with three empty lists. -/
structure Rules where
  group_map : List (String × String)
  blacklist : List String
  aliases : List (String × String)

/-- The empty rule set. -/
def emptyRules : Rules := ⟨[], [], []⟩

/-- Integration of one aliases.yaml pair into the two maps, as the
aliases loop of from_csv: append to the alias list of an existing
canonical name, or create the canonical with itself and the alias; the
alias map is keyed by the lower-cased alias. -/
def aliasRuleStep (acc : List (String × List String) × List (String × String))
    (rule : String × String) :
    List (String × List String) × List (String × String) :=
  let c2aNew :=
    match lookupKV rule.2 acc.1 with
    | some lst => insertKV rule.2 (lst ++ [rule.1]) acc.1
    | none => insertKV rule.2 [rule.2, rule.1] acc.1
  (c2aNew, insertKV (pyLower rule.1) rule.2 acc.2)

/-- The CLIP-pipeline Taxonomy dataclass. -/
structure Taxonomy where
  canonical_to_aliases : List (String × List String)
  alias_to_canonical : List (String × String)
  names : List String
  group_mapping : List (String × String)
  blacklist : List String

/-- Taxonomy.from_csv of the CLIP pipeline over already-parsed rows and
rule files: fold the rows, integrate the alias rules, take the canonical
keys as names and attach group map and blacklist. -/
def Taxonomy.from_csv (rows : List Row) (rules : Rules) : Taxonomy :=
  let p := rules.aliases.foldl aliasRuleStep (rows.foldl rowStep ([], []))
  ⟨p.1, p.2, keysOf p.1, rules.group_map, rules.blacklist⟩

/-- Taxonomy.canon method: canonicalization with the extended stop-word
set of the CLIP-pipeline module. -/
def Taxonomy.canon (_t : Taxonomy) (s : String) : String :=
  canonWith cvDropWords s

/-- Taxonomy.contains_blacklist: a blacklist term occurring inside the
canonicalized text disqualifies it. -/
def Taxonomy.contains_blacklist (t : Taxonomy) (s : String) : Bool :=
  t.blacklist.any (fun b => isSubstr b (t.canon s))

/-- Best-scoring choice scan keeping the first maximum, with the running
best choice and score as accumulator. -/
def extractOneGo (scorer : String → String → ℚ) (q : String)
    (b : String) (bs : ℚ) : List String → String × ℚ
  | [] => (b, bs)
  | c :: cs =>
    if bs < scorer q c then extractOneGo scorer q c (scorer q c) cs
    else extractOneGo scorer q b bs cs

/-- Model of rapidfuzz process.extractOne over an abstract similarity
scorer: none exactly on an empty choice list, otherwise the first choice
of maximal score together with that score. -/
def extractOne (scorer : String → String → ℚ) (q : String) :
    List String → Option (String × ℚ)
  | [] => none
  | c :: cs => some (extractOneGo scorer q c (scorer q c) cs)

/-- Taxonomy.normalize of the CLIP pipeline: empty guard, exact lookup
of the canonicalized key, exact lookup of the stripped lower-cased raw
text, fuzzy match over the alias keys, fuzzy match over the canonical
names, blacklist rejection, raw passthrough. The fuzzy scorer (WRatio
in the source) is an explicit parameter returning scores in the 0-100
range. -/
def Taxonomy.normalize (t : Taxonomy) (scorer : String → String → ℚ) (s : String) :
    String × ℚ :=
  if s = "" then ("", 0)
  else
    let key := t.canon s
    match lookupKV key t.alias_to_canonical with
    | some c => (c, 1)
    | none =>
      let okey := pyLower (pyStrip s)
      match lookupKV okey t.alias_to_canonical with
      | some c => (c, 1)
      | none =>
        match extractOne scorer key (keysOf t.alias_to_canonical) with
        | some (al, sc) => ((lookupKV al t.alias_to_canonical).getD "", sc / 100)
        | none =>
          match extractOne scorer key t.names with
          | some (nm, sc) => (nm, sc / 100)
          | none =>
            if t.contains_blacklist s then ("", 0) else (s, 0)

/-- The LLM-pipeline Taxonomy dataclass (no rules, no blacklist). -/
structure LlmTaxonomy where
  canonical_to_aliases : List (String × List String)
  alias_to_canonical : List (String × String)
  names : List String

/-- Taxonomy.from_csv of the LLM pipeline: the same row fold, without
rule files. -/
def LlmTaxonomy.from_csv (rows : List Row) : LlmTaxonomy :=
  let p := rows.foldl rowStep ([], [])
  ⟨p.1, p.2, keysOf p.1⟩

/-- Taxonomy.normalize of the LLM pipeline: exact lookup of the stripped
lower-cased text, fuzzy match over alias keys, fuzzy match over
canonical names, raw passthrough. -/
def LlmTaxonomy.normalize (t : LlmTaxonomy) (scorer : String → String → ℚ)
    (s : String) : String × ℚ :=
  let key := pyLower (pyStrip s)
  match lookupKV key t.alias_to_canonical with
  | some c => (c, 1)
  | none =>
    match extractOne scorer key (keysOf t.alias_to_canonical) with
    | some (al, sc) => ((lookupKV al t.alias_to_canonical).getD "", sc / 100)
    | none =>
      match extractOne scorer key t.names with
      | some (nm, sc) => (nm, sc / 100)
      | none => (s, 0)

/-- A simple scorer satisfying the WRatio contract, used to instantiate
witnesses: full score on equal strings, zero otherwise. -/
def eqScorer (x y : String) : ℚ := if x = y then 100 else 0

/-- The DetectionResult dataclass; the source stores the box as the list
x, y, w, h, embedded here as four integer fields. -/
structure DetectionResult where
  x : ℤ
  y : ℤ
  w : ℤ
  h : ℤ
  label : String
  confidence : ℚ
  service_code : String
deriving DecidableEq

/-- Inclusive box area of the NMS routine: with x2 = x + w the source
computes (x2 - x1 + 1) * (y2 - y1 + 1). -/
def area (d : DetectionResult) : ℤ := (d.w + 1) * (d.h + 1)

/-- Inclusive intersection area of two boxes in the NMS routine. -/
def interArea (a b : DetectionResult) : ℤ :=
  max 0 (min (a.x + a.w) (b.x + b.w) - max a.x b.x + 1) *
  max 0 (min (a.y + a.h) (b.y + b.h) - max a.y b.y + 1)

/-- Intersection over union with the epsilon-guarded denominator of the
source. -/
def iou (a b : DetectionResult) : ℚ :=
  (interArea a b : ℚ) / ((area a : ℚ) + (area b : ℚ) - (interArea a b : ℚ) + 1 / 1000000)

/-- Ascending-confidence comparison used for sorting detections. -/
def confLE (a b : DetectionResult) : Prop := a.confidence ≤ b.confidence

instance : DecidableRel confLE :=
  fun a b => inferInstanceAs (Decidable (a.confidence ≤ b.confidence))

instance : IsTotal DetectionResult confLE := ⟨fun x y => le_total x.confidence y.confidence⟩

instance : IsTrans DetectionResult confLE := ⟨fun _ _ _ h h' => le_trans h h'⟩

/-- Descending-confidence comparison used by the final Python sorted
call. -/
def confGE (a b : DetectionResult) : Prop := b.confidence ≤ a.confidence

instance : DecidableRel confGE :=
  fun a b => inferInstanceAs (Decidable (b.confidence ≤ a.confidence))

instance : IsTotal DetectionResult confGE := ⟨fun x y => le_total y.confidence x.confidence⟩

instance : IsTrans DetectionResult confGE := ⟨fun _ _ _ h h' => le_trans h' h⟩

/-- Model of scores.argsort()[::-1] applied to the detection list:
numpy argsort is insertion sort on these small arrays, hence a stable
ascending sort, and the reversal makes it descending with ties in
reversed input order. -/
def sortNumpy (l : List DetectionResult) : List DetectionResult :=
  (List.insertionSort confLE l).reverse

/-- Model of Python sorted with a negated confidence key: stable
descending order. -/
def sortPy (l : List DetectionResult) : List DetectionResult :=
  List.insertionSort confGE l

/-- Greedy suppression loop of _nms over the detections in descending
score order: keep the head, drop every remaining detection whose IoU
with it exceeds the threshold, recurse. -/
def nmsAux (t : ℚ) : Nat → List DetectionResult → List DetectionResult
  | 0, _ => []
  | _, [] => []
  | fuel+1, d :: rest =>
    d :: nmsAux t fuel (rest.filter (fun e => decide (iou d e ≤ t)))

/-- The _nms method: early return on an empty list, otherwise the greedy
suppression loop over the argsort-descending order. -/
def nms (detections : List DetectionResult) (iou_threshold : ℚ) : List DetectionResult :=
  if detections = [] then []
  else nmsAux iou_threshold detections.length (sortNumpy detections)

/-- Round half to even on an exact rational, as Python round on the
values arising here. -/
def pyRoundInt (q : ℚ) : ℤ :=
  if q - ⌊q⌋ < 1 / 2 then ⌊q⌋
  else if 1 / 2 < q - ⌊q⌋ then ⌊q⌋ + 1
  else if ⌊q⌋ % 2 = 0 then ⌊q⌋ else ⌊q⌋ + 1

/-- Python round(q, 4). -/
def round4 (q : ℚ) : ℚ := (pyRoundInt (q * 10000) : ℚ) / 10000

/-- The retrieval section of the configuration dict. -/
structure RetrievalConfig where
  score_clip_w : ℚ
  score_orb_w : ℚ
  score_ocr_w : ℚ
  accept_score : ℚ

/-- Scoring tail of the analyze_image region loop, after the crop and
the collaborator signals: weighted sum of the CLIP, ORB and OCR scores,
threshold rejection, taxonomy normalization of the matched icon's
service name, and the blended rounded confidence. -/
def scoreRegion (cfg : RetrievalConfig) (tax : Taxonomy)
    (scorer : String → String → ℚ) (x0 y0 w h : ℤ)
    (service_name service_code : String) (clip_s orb_s ocr_s : ℚ) :
    Option DetectionResult :=
  let final_score := cfg.score_clip_w * clip_s + cfg.score_orb_w * orb_s +
    cfg.score_ocr_w * ocr_s
  if final_score < cfg.accept_score then none
  else
    let r := tax.normalize scorer service_name
    some ⟨x0, y0, w, h, r.1, round4 (final_score * (7 / 10) + r.2 * (3 / 10)),
      service_code⟩

/-- One proposed region with the numeric signals its collaborators
produced. -/
structure RegionInput where
  x : ℤ
  y : ℤ
  w : ℤ
  h : ℤ
  service_name : String
  service_code : String
  clip_s : ℚ
  orb_s : ℚ
  ocr_s : ℚ

/-- Per-region body of the analyze_image loop: clamp the proposed box to
the image, skip boxes smaller than 24 pixels a side, then score. -/
def processRegion (W H : ℤ) (cfg : RetrievalConfig) (tax : Taxonomy)
    (scorer : String → String → ℚ) (r : RegionInput) : Option DetectionResult :=
  let x0 := max 0 r.x
  let y0 := max 0 r.y
  let x1 := min W (r.x + r.w)
  let y1 := min H (r.y + r.h)
  if x1 - x0 < 24 ∨ y1 - y0 < 24 then none
  else scoreRegion cfg tax scorer x0 y0 (x1 - x0) (y1 - y0)
    r.service_name r.service_code r.clip_s r.orb_s r.ocr_s

/-- Detection part of analyze_image: score every proposed region, then,
when any detection survived, apply NMS and the final stable descending
sort. -/
def analyze_image (W H : ℤ) (cfg : RetrievalConfig) (iou_nms : ℚ)
    (tax : Taxonomy) (scorer : String → String → ℚ)
    (regions : List RegionInput) : List DetectionResult :=
  let detections := regions.filterMap (processRegion W H cfg tax scorer)
  if detections = [] then detections
  else sortPy (nms detections iou_nms)

/-- The _normalize_detection method of the LLM auto labeler: strip the
name, reject below the confidence threshold, normalize through the
taxonomy, clamp the box into the image with width and height forced to
at least one, and return the rounded minimum of the two confidences. -/
def normalize_detection (conf_threshold : ℚ) (tax : LlmTaxonomy)
    (scorer : String → String → ℚ) (rawName : String)
    (bx bY bw bh : ℤ) (confidence : ℚ) (image_width image_height : ℤ) :
    Option DetectionResult :=
  let nm := pyStrip rawName
  if confidence < conf_threshold then none
  else
    let r := tax.normalize scorer nm
    let x := max 0 (min bx image_width)
    let y := max 0 (min bY image_height)
    let w := max 1 (min bw (image_width - x))
    let h := max 1 (min bh (image_height - y))
    some ⟨x, y, w, h, r.1, round4 (min confidence r.2), r.1⟩

/-- Special characters handled by the replacement phase of canon. -/
def isSpecial (c : Char) : Bool :=
  c = '&' ∨ c = '–' ∨ c = '—' ∨ c = '-' ∨ c = '_' ∨ c = '/'

/-- Two-row example taxonomy whose second canonical name canonicalizes
onto the first one's alias key. -/
def exTax : Taxonomy :=
  Taxonomy.from_csv [⟨some ("EC2"), none⟩, ⟨some ("Amazon EC2"), none⟩] emptyRules

/-- One-row example taxonomy for the LLM pipeline. -/
def exLlmTax : LlmTaxonomy := LlmTaxonomy.from_csv [⟨some ("EC2"), none⟩]

/-- Two equal-confidence, non-overlapping example detections. -/
def detA : DetectionResult := ⟨0, 0, 10, 10, ("a"), 1, ("a")⟩

/-- Second equal-confidence example detection, far from the first. -/
def detB : DetectionResult := ⟨100, 100, 10, 10, ("b"), 1, ("b")⟩

/-- Higher-confidence example detection for distinct-confidence runs. -/
def detC : DetectionResult := ⟨0, 0, 10, 10, ("c"), 2, ("c")⟩

/-- Lower-confidence example detection, far from the previous one. -/
def detD : DetectionResult := ⟨100, 100, 10, 10, ("d"), 1, ("d")⟩

/-! Helper lemmas about association lists and folds. -/

theorem foldl_preserve {α β : Type} {P : α → Prop} (step : α → β → α)
    (h : ∀ acc b, P acc → P (step acc b)) :
    ∀ (l : List β) (acc : α), P acc → P (l.foldl step acc) := by
  intro l
  induction l with
  | nil => intro acc hacc; exact hacc
  | cons b bs ih => intro acc hacc; exact ih (step acc b) (h acc b hacc)

theorem mem_keysOf_insertKV {β : Type} (k : String) (v : β) (m : List (String × β))
    (x : String) (hx : x ∈ keysOf m) : x ∈ keysOf (insertKV k v m) := by
  induction m with
  | nil => cases hx
  | cons e rest ih =>
    obtain ⟨k', v'⟩ := e
    by_cases hk : k' = k
    · subst hk
      simp only [insertKV, if_true, eq_self_iff_true, keysOf, List.map_cons,
        List.mem_cons] at hx ⊢
      exact hx
    · simp only [insertKV, if_neg hk, keysOf, List.map_cons, List.mem_cons] at hx ⊢
      rcases hx with hx | hx
      · left; exact hx
      · right; exact ih hx

theorem self_mem_keysOf_insertKV {β : Type} (k : String) (v : β)
    (m : List (String × β)) : k ∈ keysOf (insertKV k v m) := by
  induction m with
  | nil => simp [insertKV, keysOf]
  | cons e rest ih =>
    obtain ⟨k', v'⟩ := e
    by_cases hk : k' = k
    · simp [insertKV, if_pos hk, keysOf]
    · simp only [insertKV, if_neg hk, keysOf, List.map_cons, List.mem_cons]
      right
      exact ih

theorem insertKV_ne_nil {β : Type} (k : String) (v : β) (m : List (String × β)) :
    insertKV k v m ≠ [] := by
  cases m with
  | nil => simp [insertKV]
  | cons e rest =>
    obtain ⟨k', v'⟩ := e
    by_cases hk : k' = k
    · simp [insertKV, if_pos hk]
    · simp [insertKV, if_neg hk]

theorem mem_valuesOf_insertKV {β : Type} (k : String) (v : β) (m : List (String × β))
    (x : β) (hx : x ∈ valuesOf (insertKV k v m)) : x ∈ valuesOf m ∨ x = v := by
  induction m with
  | nil =>
    simp only [insertKV, valuesOf, List.map_cons, List.map_nil, List.mem_singleton] at hx
    right; exact hx
  | cons e rest ih =>
    obtain ⟨k', v'⟩ := e
    by_cases hk : k' = k
    · simp only [insertKV, if_pos hk, valuesOf, List.map_cons, List.mem_cons] at hx ⊢
      rcases hx with hx | hx
      · right; exact hx
      · left; right; exact hx
    · simp only [insertKV, if_neg hk, valuesOf, List.map_cons, List.mem_cons] at hx ⊢
      rcases hx with hx | hx
      · left; left; exact hx
      · rcases ih hx with h | h
        · left; right; exact h
        · right; exact h

theorem lookupKV_mem_valuesOf {β : Type} (k : String) (m : List (String × β)) (v : β)
    (h : lookupKV k m = some v) : v ∈ valuesOf m := by
  induction m with
  | nil => cases h
  | cons e rest ih =>
    obtain ⟨k', v'⟩ := e
    by_cases hk : k' = k
    · simp only [lookupKV, if_pos hk, Option.some.injEq] at h
      simp [valuesOf, h]
    · simp only [lookupKV, if_neg hk] at h
      simp only [valuesOf, List.map_cons, List.mem_cons]
      right
      exact ih h

theorem lookupKV_isSome_of_mem_keysOf {β : Type} (k : String) (m : List (String × β))
    (h : k ∈ keysOf m) : ∃ v, lookupKV k m = some v := by
  induction m with
  | nil => cases h
  | cons e rest ih =>
    obtain ⟨k', v'⟩ := e
    by_cases hk : k' = k
    · exact ⟨v', by simp [lookupKV, if_pos hk]⟩
    · simp only [keysOf, List.map_cons, List.mem_cons] at h
      rcases h with h | h

      · exact absurd h.symm hk
      · obtain ⟨v, hv⟩ := ih h
        exact ⟨v, by simp [lookupKV, if_neg hk, hv]⟩

theorem lookupKV_eq_none_iff {β : Type} (k : String) (m : List (String × β)) :
    lookupKV k m = none ↔ k ∉ keysOf m := by
  constructor
  · intro h hk
    obtain ⟨v, hv⟩ := lookupKV_isSome_of_mem_keysOf k m hk
    rw [h] at hv
    cases hv
  · intro h
    cases hl : lookupKV k m with
    | none => rfl
    | some v =>
      exfalso
      apply h
      clear h
      induction m with
      | nil => cases hl
      | cons e rest ih =>
        obtain ⟨k', v'⟩ := e
        by_cases hk : k' = k
        · simp [keysOf, hk]
        · simp only [lookupKV, if_neg hk] at hl
          simp only [keysOf, List.map_cons, List.mem_cons]
          right
          exact ih hl

/-! Keys of the canonical map are preserved by the build steps. -/

theorem mem_keys_rowStep (acc : List (String × List String) × List (String × String))
    (r : Row) (x : String) (hx : x ∈ keysOf acc.1) : x ∈ keysOf (rowStep acc r).1 :=
  mem_keysOf_insertKV _ _ _ _ hx

theorem mem_keys_aliasRuleStep
    (acc : List (String × List String) × List (String × String))
    (rule : String × String) (x : String) (hx : x ∈ keysOf acc.1) :
    x ∈ keysOf (aliasRuleStep acc rule).1 := by
  show x ∈ keysOf (match lookupKV rule.2 acc.1 with
    | some lst => insertKV rule.2 (lst ++ [rule.1]) acc.1
    | none => insertKV rule.2 [rule.2, rule.1] acc.1)
  cases lookupKV rule.2 acc.1 with
  | some lst => exact mem_keysOf_insertKV _ _ _ _ hx
  | none => exact mem_keysOf_insertKV _ _ _ _ hx

/-- Claim C4 (counterexample): the spec's concrete scenario value for
canonicalizing the EC2 long name is wrong, because the parenthesized
block is removed together with the EC2 abbreviation inside it. -/
theorem canon_ec2_counterexample :
    canon ("Amazon Elastic Compute Cloud (EC2) Service") ≠
      ("elastic compute cloud ec2") := by decide

/-- Claim C4 (amended): canonicalizing the EC2 long name yields the
string without the abbreviation, since the whole parenthesized block is
stripped, the vendor word is stripped and the trailing stop word is
dropped. -/
theorem canon_ec2_value :
    canon ("Amazon Elastic Compute Cloud (EC2) Service") =
      ("elastic compute cloud") := by decide

/-- Claim C8 (counterexample): a row whose canonical cell is missing or
NaN is not skipped by from_csv; its cell is stringified to nan and
registered as a canonical service with itself as alias key. -/
theorem from_csv_nan_registered :
    (Taxonomy.from_csv [⟨none, none⟩] emptyRules).alias_to_canonical =
      [(("nan"), ("nan"))] ∧
    (Taxonomy.from_csv [⟨none, none⟩] emptyRules).names = [("nan")] := by decide

/-- Claim C8 (amended): from_csv treats a missing or NaN canonical cell
exactly like the literal string nan, registering it as a canonical name
rather than skipping the row; only a missing alias cell is dropped. -/
theorem from_csv_nan_row_stringified (a : Option String) (rows : List Row)
    (rules : Rules) :
    Taxonomy.from_csv (⟨none, a⟩ :: rows) rules =
      Taxonomy.from_csv (⟨some ("nan"), a⟩ :: rows) rules ∧
    ("nan") ∈ (Taxonomy.from_csv (⟨none, none⟩ :: rows) rules).names := by
  constructor
  · rfl
  · show ("nan") ∈ keysOf (rules.aliases.foldl aliasRuleStep
      ((⟨none, none⟩ :: rows).foldl rowStep ([], []))).1
    apply foldl_preserve aliasRuleStep
      (fun acc rule h => mem_keys_aliasRuleStep acc rule _ h)
    rw [List.foldl_cons]
    apply foldl_preserve rowStep (fun acc r h => mem_keys_rowStep acc r _ h)
    decide

/-- Claim C5: the scoring tail of the region loop produces no detection
exactly when the weighted raw score of the CLIP, ORB and OCR signals is
below the accept threshold, and every produced detection carries the
confidence round4 of raw score times seven tenths plus the taxonomy
confidence of the region's raw label times three tenths. -/
theorem scoreRegion_spec (cfg : RetrievalConfig) (tax : Taxonomy)
    (scorer : String → String → ℚ) (x0 y0 w h : ℤ) (sname scode : String)
    (clip_s orb_s ocr_s : ℚ) :
    (scoreRegion cfg tax scorer x0 y0 w h sname scode clip_s orb_s ocr_s = none ↔
      cfg.score_clip_w * clip_s + cfg.score_orb_w * orb_s + cfg.score_ocr_w * ocr_s <
        cfg.accept_score) ∧
    (∀ d, scoreRegion cfg tax scorer x0 y0 w h sname scode clip_s orb_s ocr_s = some d →
      d.confidence = round4 ((cfg.score_clip_w * clip_s + cfg.score_orb_w * orb_s +
        cfg.score_ocr_w * ocr_s) * (7 / 10) +
        (tax.normalize scorer sname).2 * (3 / 10))) := by
  by_cases hc : cfg.score_clip_w * clip_s + cfg.score_orb_w * orb_s +
      cfg.score_ocr_w * ocr_s < cfg.accept_score
  · refine ⟨by simp [scoreRegion, hc], ?_⟩
    intro d hd
    simp [scoreRegion, hc] at hd
  · refine ⟨by simp [scoreRegion, hc], ?_⟩
    intro d hd
    simp only [scoreRegion, if_neg hc, Option.some.injEq] at hd
    rw [← hd]

/-- Claim C5 (witness): a concrete region with unit CLIP weight and unit
CLIP score against the example taxonomy produces a detection whose
confidence is the blended rounded value. -/
theorem scoreRegion_spec_witness :
    (⟨0, 0, 30, 30, ("EC2"), 1, ("ec2")⟩ : DetectionResult).confidence =
      round4 (((1:ℚ) * 1 + 0 * 0 + 0 * 0) * (7 / 10) +
        (exTax.normalize eqScorer ("EC2")).2 * (3 / 10)) := by
  have hnorm : exTax.normalize eqScorer ("EC2") = (("EC2"), 1) := by decide
  refine (scoreRegion_spec ⟨1, 0, 0, 0⟩ exTax eqScorer 0 0 30 30 ("EC2") ("ec2")
    1 0 0).2 ⟨0, 0, 30, 30, ("EC2"), 1, ("ec2")⟩ ?_
  rw [scoreRegion]
  norm_num [hnorm, round4, pyRoundInt]

/-- Claim C1 (counterexample): the alias key of the second example row
is registered under the canonical name Amazon EC2, yet resolve returns
the other canonical name EC2 at full confidence, because the
canonicalized key strips the vendor word and hits the first row's alias
key in tier two. -/
theorem resolve_alias_redirect_counterexample :
    lookupKV ("amazon ec2") exTax.alias_to_canonical = some ("Amazon EC2") ∧
    exTax.normalize eqScorer ("amazon ec2") = (("EC2"), 1) ∧
    (("EC2") : String) ≠ ("Amazon EC2") := by decide

/-- Claim C1 (amended): resolving a registered non-empty alias key that
is fixed under strip-and-lower (as every CSV-derived alias key is)
returns confidence exactly one, and the canonical name registered for
the canonicalized form of the alias when that form is itself a
registered key, otherwise the alias's own canonical name. -/
theorem resolve_registered_alias (tax : Taxonomy) (scorer : String → String → ℚ)
    (a c : String) (ha : lookupKV a tax.alias_to_canonical = some c)
    (hne : a ≠ "") (hfix : pyLower (pyStrip a) = a) :
    tax.normalize scorer a =
      ((lookupKV (tax.canon a) tax.alias_to_canonical).getD c, 1) := by
  cases hk : lookupKV (tax.canon a) tax.alias_to_canonical with
  | some c2 => simp [Taxonomy.normalize, hne, hk]
  | none => simp [Taxonomy.normalize, hne, hk, hfix, ha]

/-- Claim C1 (witness): the first example alias key resolves at full
confidence to the canonical name selected through its canonicalized
form. -/
theorem resolve_registered_alias_witness :
    exTax.normalize eqScorer ("ec2") =
      ((lookupKV (exTax.canon ("ec2")) exTax.alias_to_canonical).getD ("EC2"), 1) :=
  resolve_registered_alias exTax eqScorer ("ec2") ("EC2") (by decide) (by decide)
    (by decide)

/-! Lemmas about extractOne. -/

theorem extractOneGo_spec (scorer : String → String → ℚ) (q : String) :
    ∀ (cs : List String) (b : String),
      (extractOneGo scorer q b (scorer q b) cs).1 ∈ b :: cs ∧
      (extractOneGo scorer q b (scorer q b) cs).2 =
        scorer q (extractOneGo scorer q b (scorer q b) cs).1 := by
  intro cs
  induction cs with
  | nil => intro b; exact ⟨List.mem_singleton_self b, rfl⟩
  | cons c cs ih =>
    intro b
    by_cases hlt : scorer q b < scorer q c
    · have h := ih c
      refine ⟨?_, ?_⟩
      · simp only [extractOneGo, if_pos hlt]
        exact List.mem_cons_of_mem b h.1
      · simp only [extractOneGo, if_pos hlt]
        exact h.2
    · have h := ih b
      refine ⟨?_, ?_⟩
      · simp only [extractOneGo, if_neg hlt]
        rcases List.mem_cons.mp h.1 with h1 | h1
        · exact List.mem_cons.mpr (Or.inl h1)
        · exact List.mem_cons_of_mem _ (List.mem_cons_of_mem _ h1)
      · simp only [extractOneGo, if_neg hlt]
        exact h.2

theorem extractOne_some_spec (scorer : String → String → ℚ) (q : String)
    (choices : List String) (a : String) (sc : ℚ)
    (h : extractOne scorer q choices = some (a, sc)) :
    a ∈ choices ∧ sc = scorer q a := by
  cases choices with
  | nil => cases h
  | cons c cs =>
    simp only [extractOne, Option.some.injEq] at h
    have hs := extractOneGo_spec scorer q cs c
    rw [h] at hs
    exact ⟨hs.1, hs.2⟩

theorem extractOne_eq_none_iff (scorer : String → String → ℚ) (q : String)
    (choices : List String) : extractOne scorer q choices = none ↔ choices = [] := by
  cases choices with
  | nil => simp [extractOne]
  | cons c cs => simp [extractOne]

/-! Invariants of the taxonomy build: every value of the alias map is a
registered canonical name, and an empty alias map forces an empty name
list. -/

theorem valuesOf_aliasFold (canonS : String) :
    ∀ (ks : List String) (m : List (String × String)) (x : String),
      x ∈ valuesOf (ks.foldl (fun m k => insertKV (pyLower k) canonS m) m) →
      x ∈ valuesOf m ∨ x = canonS := by
  intro ks
  induction ks with
  | nil => intro m x hx; left; exact hx
  | cons k ks ih =>
    intro m x hx
    rw [List.foldl_cons] at hx
    rcases ih (insertKV (pyLower k) canonS m) x hx with h | h
    · exact mem_valuesOf_insertKV _ _ _ _ h
    · right; exact h

theorem rowStep_values (acc : List (String × List String) × List (String × String))
    (r : Row) (h : ∀ v ∈ valuesOf acc.2, v ∈ keysOf acc.1) :
    ∀ v ∈ valuesOf (rowStep acc r).2, v ∈ keysOf (rowStep acc r).1 := by
  intro v hv
  rcases valuesOf_aliasFold _ _ _ _ hv with h1 | h1
  · exact mem_keysOf_insertKV _ _ _ _ (h v h1)
  · rw [h1]
    exact self_mem_keysOf_insertKV _ _ _

theorem aliasRuleStep_values
    (acc : List (String × List String) × List (String × String))
    (rule : String × String) (h : ∀ v ∈ valuesOf acc.2, v ∈ keysOf acc.1) :
    ∀ v ∈ valuesOf (aliasRuleStep acc rule).2, v ∈ keysOf (aliasRuleStep acc rule).1 := by
  intro v hv
  have hv2 : v ∈ valuesOf acc.2 ∨ v = rule.2 :=
    mem_valuesOf_insertKV _ _ _ _ hv
  show v ∈ keysOf (match lookupKV rule.2 acc.1 with
    | some lst => insertKV rule.2 (lst ++ [rule.1]) acc.1
    | none => insertKV rule.2 [rule.2, rule.1] acc.1)
  rcases hv2 with h1 | h1
  · cases lookupKV rule.2 acc.1 with
    | some lst => exact mem_keysOf_insertKV _ _ _ _ (h v h1)
    | none => exact mem_keysOf_insertKV _ _ _ _ (h v h1)
  · rw [h1]
    cases lookupKV rule.2 acc.1 with
    | some lst => exact self_mem_keysOf_insertKV _ _ _
    | none => exact self_mem_keysOf_insertKV _ _ _

theorem from_csv_values_sub_names (rows : List Row) (rules : Rules) :
    ∀ v ∈ valuesOf (Taxonomy.from_csv rows rules).alias_to_canonical,
      v ∈ (Taxonomy.from_csv rows rules).names := by
  show ∀ v ∈ valuesOf (rules.aliases.foldl aliasRuleStep
      (rows.foldl rowStep ([], []))).2,
    v ∈ keysOf (rules.aliases.foldl aliasRuleStep (rows.foldl rowStep ([], []))).1
  apply foldl_preserve aliasRuleStep
    (fun acc rule h => aliasRuleStep_values acc rule h)
  apply foldl_preserve rowStep (fun acc r h => rowStep_values acc r h)
  intro v hv
  cases hv

theorem llm_from_csv_values_sub_names (rows : List Row) :
    ∀ v ∈ valuesOf (LlmTaxonomy.from_csv rows).alias_to_canonical,
      v ∈ (LlmTaxonomy.from_csv rows).names := by
  show ∀ v ∈ valuesOf (rows.foldl rowStep ([], [])).2,
    v ∈ keysOf (rows.foldl rowStep ([], [])).1
  apply foldl_preserve rowStep (fun acc r h => rowStep_values acc r h)
  intro v hv
  cases hv

theorem aliasFold_ne_nil (canonS : String) :
    ∀ (ks : List String) (m : List (String × String)), m ≠ [] →
      ks.foldl (fun m k => insertKV (pyLower k) canonS m) m ≠ [] := by
  intro ks
  induction ks with
  | nil => intro m hm; exact hm
  | cons k ks ih =>
    intro m hm
    rw [List.foldl_cons]
    exact ih _ (insertKV_ne_nil _ _ _)

theorem dedupFirst_cons_ne_nil (x : String) (xs : List String) :
    dedupFirst (x :: xs) ≠ [] := by
  show xs.foldl (fun acc y => if y ∈ acc then acc else acc ++ [y]) [x] ≠ []
  refine @foldl_preserve (List String) String (fun acc => acc ≠ [])
    (fun acc y => if y ∈ acc then acc else acc ++ [y]) ?_ xs [x] (by simp)
  intro acc b hacc
  by_cases hb : b ∈ acc
  · simpa [hb] using hacc
  · simp only [if_neg hb]
    intro hcontra
    exact hacc (List.append_eq_nil.mp hcontra).1

theorem rowStep_a2c_ne_nil (acc : List (String × List String) × List (String × String))
    (r : Row) : (rowStep acc r).2 ≠ [] := by
  show (dedupFirst (pyStrip (cellStr r.nameCell) :: parseAliases r.aliasCell)).foldl
    (fun m k => insertKV (pyLower k) (pyStrip (cellStr r.nameCell)) m) acc.2 ≠ []
  cases hd : dedupFirst (pyStrip (cellStr r.nameCell) :: parseAliases r.aliasCell) with
  | nil => exact absurd hd (dedupFirst_cons_ne_nil _ _)
  | cons k ks =>
    rw [List.foldl_cons]
    exact aliasFold_ne_nil _ ks _ (insertKV_ne_nil _ _ _)

theorem rowsFold_a2c_ne_nil :
    ∀ (rows : List Row) (acc : List (String × List String) × List (String × String)),
      acc.2 ≠ [] → (rows.foldl rowStep acc).2 ≠ [] := by
  intro rows
  induction rows with
  | nil => intro acc h; exact h
  | cons r rs ih =>
    intro acc _
    rw [List.foldl_cons]
    exact ih _ (rowStep_a2c_ne_nil acc r)

theorem rulesFold_a2c_ne_nil :
    ∀ (ls : List (String × String))
      (acc : List (String × List String) × List (String × String)),
      acc.2 ≠ [] → (ls.foldl aliasRuleStep acc).2 ≠ [] := by
  intro ls
  induction ls with
  | nil => intro acc h; exact h
  | cons x xs ih =>
    intro acc _
    rw [List.foldl_cons]
    exact ih _ (insertKV_ne_nil _ _ _)

theorem from_csv_a2c_nil_names_nil (rows : List Row) (rules : Rules)
    (h : (Taxonomy.from_csv rows rules).alias_to_canonical = []) :
    (Taxonomy.from_csv rows rules).names = [] := by
  have h' : (rules.aliases.foldl aliasRuleStep (rows.foldl rowStep ([], []))).2 = [] := h
  cases hr : rules.aliases with
  | cons x xs =>
    rw [hr, List.foldl_cons] at h'
    exact absurd h' (rulesFold_a2c_ne_nil xs _ (insertKV_ne_nil _ _ _))
  | nil =>
    rw [hr, List.foldl_nil] at h'
    cases hrows : rows with
    | cons r rs =>
      rw [hrows, List.foldl_cons] at h'
      exact absurd h' (rowsFold_a2c_ne_nil rs _ (rowStep_a2c_ne_nil _ r))
    | nil =>
      show keysOf (rules.aliases.foldl aliasRuleStep
        (([] : List Row).foldl rowStep ([], []))).1 = []
      rw [hr]
      rfl

/-- Claim C10: whenever the taxonomy was built from the tabular source
with at least one registered alias key, resolving any non-empty string
returns a label that is a registered canonical name, in both the CLIP
pipeline and the LLM pipeline; the fuzzy tier always produces a best
match over the non-empty key list, so the blacklist-rejection and
raw-passthrough tiers are unreachable. -/
theorem normalize_returns_registered_name :
    (∀ (rows : List Row) (rules : Rules) (scorer : String → String → ℚ) (s : String),
      (Taxonomy.from_csv rows rules).alias_to_canonical ≠ [] → s ≠ "" →
      ((Taxonomy.from_csv rows rules).normalize scorer s).1 ∈
        (Taxonomy.from_csv rows rules).names) ∧
    (∀ (rows : List Row) (scorer : String → String → ℚ) (s : String),
      (LlmTaxonomy.from_csv rows).alias_to_canonical ≠ [] → s ≠ "" →
      ((LlmTaxonomy.from_csv rows).normalize scorer s).1 ∈
        (LlmTaxonomy.from_csv rows).names) := by
  constructor
  · intro rows rules scorer s hne hs
    cases hk : lookupKV ((Taxonomy.from_csv rows rules).canon s)
        (Taxonomy.from_csv rows rules).alias_to_canonical with
    | some c =>
      have hres : (Taxonomy.from_csv rows rules).normalize scorer s = (c, 1) := by
        simp [Taxonomy.normalize, hs, hk]
      rw [hres]
      exact from_csv_values_sub_names rows rules c (lookupKV_mem_valuesOf _ _ _ hk)
    | none =>
      cases ho : lookupKV (pyLower (pyStrip s))
          (Taxonomy.from_csv rows rules).alias_to_canonical with
      | some c =>
        have hres : (Taxonomy.from_csv rows rules).normalize scorer s = (c, 1) := by
          simp [Taxonomy.normalize, hs, hk, ho]
        rw [hres]
        exact from_csv_values_sub_names rows rules c (lookupKV_mem_valuesOf _ _ _ ho)
      | none =>
        cases he : extractOne scorer ((Taxonomy.from_csv rows rules).canon s)
            (keysOf (Taxonomy.from_csv rows rules).alias_to_canonical) with
        | none =>
          exact absurd (List.map_eq_nil_iff.mp ((extractOne_eq_none_iff _ _ _).mp he)) hne
        | some p =>
          obtain ⟨al, sc⟩ := p
          have hmem := (extractOne_some_spec _ _ _ _ _ he).1
          obtain ⟨v, hv⟩ := lookupKV_isSome_of_mem_keysOf al _ hmem
          have hres : (Taxonomy.from_csv rows rules).normalize scorer s = (v, sc / 100) := by
            simp [Taxonomy.normalize, hs, hk, ho, he, hv]
          rw [hres]
          exact from_csv_values_sub_names rows rules v (lookupKV_mem_valuesOf _ _ _ hv)
  · intro rows scorer s hne hs
    cases hk : lookupKV (pyLower (pyStrip s))
        (LlmTaxonomy.from_csv rows).alias_to_canonical with
    | some c =>
      have hres : (LlmTaxonomy.from_csv rows).normalize scorer s = (c, 1) := by
        simp [LlmTaxonomy.normalize, hk]
      rw [hres]
      exact llm_from_csv_values_sub_names rows c (lookupKV_mem_valuesOf _ _ _ hk)
    | none =>
      cases he : extractOne scorer (pyLower (pyStrip s))
          (keysOf (LlmTaxonomy.from_csv rows).alias_to_canonical) with
      | none =>
        exact absurd (List.map_eq_nil_iff.mp ((extractOne_eq_none_iff _ _ _).mp he)) hne
      | some p =>
        obtain ⟨al, sc⟩ := p
        have hmem := (extractOne_some_spec _ _ _ _ _ he).1
        obtain ⟨v, hv⟩ := lookupKV_isSome_of_mem_keysOf al _ hmem
        have hres : (LlmTaxonomy.from_csv rows).normalize scorer s = (v, sc / 100) := by
          simp [LlmTaxonomy.normalize, hk, he, hv]
        rw [hres]
        exact llm_from_csv_values_sub_names rows v (lookupKV_mem_valuesOf _ _ _ hv)

/-- Claim C10 (witness): resolving an unknown non-empty string against
the one-row example taxonomy yields a registered canonical name. -/
theorem normalize_returns_registered_name_witness :
    ((Taxonomy.from_csv [⟨some ("EC2"), none⟩] emptyRules).normalize eqScorer
      ("blah")).1 ∈ (Taxonomy.from_csv [⟨some ("EC2"), none⟩] emptyRules).names :=
  normalize_returns_registered_name.1 [⟨some ("EC2"), none⟩] emptyRules eqScorer
    ("blah") (by decide) (by decide)

/-- Claim C2: over any taxonomy built from the tabular source and any
fuzzy scorer satisfying the WRatio contract (scores at most 100, with
100 only on equal strings), resolve returns confidence exactly one if
and only if the input is non-empty and hits an exact alias-key lookup,
either through its canonicalized key or through its stripped
lower-cased form; every fuzzy-tier result stays strictly below one. -/
theorem resolve_confidence_one_iff (rows : List Row) (rules : Rules)
    (scorer : String → String → ℚ)
    (hscorer : ∀ x y, scorer x y ≤ 100 ∧ (scorer x y = 100 → x = y)) (s : String) :
    ((Taxonomy.from_csv rows rules).normalize scorer s).2 = 1 ↔
      (s ≠ "" ∧
        (lookupKV ((Taxonomy.from_csv rows rules).canon s)
            (Taxonomy.from_csv rows rules).alias_to_canonical ≠ none ∨
         lookupKV (pyLower (pyStrip s))
            (Taxonomy.from_csv rows rules).alias_to_canonical ≠ none)) := by
  by_cases hs : s = ""
  · subst hs
    simp only [Taxonomy.normalize, if_pos rfl]
    norm_num
  · cases hk : lookupKV ((Taxonomy.from_csv rows rules).canon s)
        (Taxonomy.from_csv rows rules).alias_to_canonical with
    | some c =>
      have hres : (Taxonomy.from_csv rows rules).normalize scorer s = (c, 1) := by
        simp [Taxonomy.normalize, hs, hk]
      rw [hres]
      simp [hs, hk]
    | none =>
      cases ho : lookupKV (pyLower (pyStrip s))
          (Taxonomy.from_csv rows rules).alias_to_canonical with
      | some c =>
        have hres : (Taxonomy.from_csv rows rules).normalize scorer s = (c, 1) := by
          simp [Taxonomy.normalize, hs, hk, ho]
        rw [hres]
        simp [hs, ho]
      | none =>
        cases he : extractOne scorer ((Taxonomy.from_csv rows rules).canon s)
            (keysOf (Taxonomy.from_csv rows rules).alias_to_canonical) with
        | some p =>
          obtain ⟨al, sc⟩ := p
          have hspec := extractOne_some_spec _ _ _ _ _ he
          obtain ⟨v, hv⟩ := lookupKV_isSome_of_mem_keysOf al _ hspec.1
          have hres : (Taxonomy.from_csv rows rules).normalize scorer s =
              (v, sc / 100) := by
            simp [Taxonomy.normalize, hs, hk, ho, he, hv]
          rw [hres]
          simp only [hk, ho, ne_eq]
          constructor
          · intro h1
            exfalso
            have hsc100 : sc = (100 : ℚ) :=
              (div_eq_one_iff_eq (by norm_num : (100 : ℚ) ≠ 0)).mp h1
            have heq := (hscorer ((Taxonomy.from_csv rows rules).canon s) al).2
              (by rw [← hspec.2]; exact hsc100)
            rw [← heq] at hspec
            exact (lookupKV_eq_none_iff _ _).mp hk hspec.1
          · intro h1
            rcases h1.2 with h2 | h2 <;> exact (h2 trivial).elim
        | none =>
          have hkeys : keysOf (Taxonomy.from_csv rows rules).alias_to_canonical = [] :=
            (extractOne_eq_none_iff _ _ _).mp he
          have ha2c : (Taxonomy.from_csv rows rules).alias_to_canonical = [] :=
            List.map_eq_nil_iff.mp hkeys
          have hnames : (Taxonomy.from_csv rows rules).names = [] :=
            from_csv_a2c_nil_names_nil rows rules ha2c
          have he2 : extractOne scorer ((Taxonomy.from_csv rows rules).canon s)
              (Taxonomy.from_csv rows rules).names = none := by
            rw [hnames]
            exact (extractOne_eq_none_iff _ _ _).mpr rfl
          cases hb : (Taxonomy.from_csv rows rules).contains_blacklist s with
          | true =>
            have hres : (Taxonomy.from_csv rows rules).normalize scorer s = ("", 0) := by
              simp [Taxonomy.normalize, hs, hk, ho, he, he2, hb]
            rw [hres]
            simp only [hk, ho, ne_eq]
            norm_num
          | false =>
            have hres : (Taxonomy.from_csv rows rules).normalize scorer s = (s, 0) := by
              simp [Taxonomy.normalize, hs, hk, ho, he, he2, hb]
            rw [hres]
            simp only [hk, ho, ne_eq]
            norm_num

/-- Claim C2 (witness): with the simple contract-satisfying scorer and a
one-row taxonomy, the exact-hit characterization of full confidence
holds at a registered key. -/
theorem resolve_confidence_one_iff_witness :
    ((Taxonomy.from_csv [⟨some ("EC2"), none⟩] emptyRules).normalize eqScorer
        ("ec2")).2 = 1 ↔
      ((("ec2") : String) ≠ "" ∧
        (lookupKV ((Taxonomy.from_csv [⟨some ("EC2"), none⟩] emptyRules).canon ("ec2"))
            (Taxonomy.from_csv [⟨some ("EC2"), none⟩] emptyRules).alias_to_canonical ≠
              none ∨
         lookupKV (pyLower (pyStrip ("ec2")))
            (Taxonomy.from_csv [⟨some ("EC2"), none⟩] emptyRules).alias_to_canonical ≠
              none)) :=
  resolve_confidence_one_iff [⟨some ("EC2"), none⟩] emptyRules eqScorer
    (fun x y => by
      constructor
      · show (if x = y then (100 : ℚ) else 0) ≤ 100
        split <;> norm_num
      · intro h100
        by_cases h : x = y
        · exact h
        · exfalso
          have : (if x = y then (100 : ℚ) else 0) = 100 := h100
          rw [if_neg h] at this
          norm_num at this)
    ("ec2")

/-! Lemmas about the NMS deduplicator. -/

theorem interArea_comm (a b : DetectionResult) : interArea a b = interArea b a := by
  unfold interArea
  rw [min_comm (a.x + a.w), max_comm a.x, min_comm (a.y + a.h), max_comm a.y]

theorem iou_comm (a b : DetectionResult) : iou a b = iou b a := by
  unfold iou
  rw [interArea_comm a b, add_comm ((area a : ℤ) : ℚ)]

theorem nmsAux_sublist (t : ℚ) :
    ∀ (fuel : Nat) (l : List DetectionResult), (nmsAux t fuel l).Sublist l := by
  intro fuel
  induction fuel with
  | zero =>
    intro l
    cases l with
    | nil => exact List.nil_sublist _
    | cons d rest => exact List.nil_sublist _
  | succ fuel ih =>
    intro l
    cases l with
    | nil => exact List.nil_sublist []
    | cons d rest =>
      show (d :: nmsAux t fuel (rest.filter (fun e => decide (iou d e ≤ t)))).Sublist
        (d :: rest)
      exact List.Sublist.cons₂ d
        ((ih _).trans (List.filter_sublist rest))

theorem nmsAux_pairwise (t : ℚ) :
    ∀ (fuel : Nat) (l : List DetectionResult),
      (nmsAux t fuel l).Pairwise (fun a b => iou a b ≤ t) := by
  intro fuel
  induction fuel with
  | zero =>
    intro l
    cases l with
    | nil => exact List.Pairwise.nil
    | cons d rest => exact List.Pairwise.nil
  | succ fuel ih =>
    intro l
    cases l with
    | nil => exact List.Pairwise.nil
    | cons d rest =>
      show (d :: nmsAux t fuel (rest.filter (fun e => decide (iou d e ≤ t)))).Pairwise
        (fun a b => iou a b ≤ t)
      rw [List.pairwise_cons]
      refine ⟨?_, ih _⟩
      intro e he
      have hmem : e ∈ rest.filter (fun e => decide (iou d e ≤ t)) :=
        (nmsAux_sublist t fuel _).subset he
      exact of_decide_eq_true (List.mem_filter.mp hmem).2

theorem nmsAux_eq_self (t : ℚ) :
    ∀ (fuel : Nat) (l : List DetectionResult), l.length ≤ fuel →
      l.Pairwise (fun a b => iou a b ≤ t) → nmsAux t fuel l = l := by
  intro fuel
  induction fuel with
  | zero =>
    intro l hlen _
    rw [Nat.le_zero] at hlen
    rw [List.length_eq_zero.mp hlen]
    rfl
  | succ fuel ih =>
    intro l hlen hpair
    cases l with
    | nil => rfl
    | cons d rest =>
      rw [List.pairwise_cons] at hpair
      have hfilter : rest.filter (fun e => decide (iou d e ≤ t)) = rest :=
        List.filter_eq_self.mpr (fun e he => decide_eq_true (hpair.1 e he))
      show d :: nmsAux t fuel (rest.filter (fun e => decide (iou d e ≤ t))) = d :: rest
      rw [hfilter, ih rest (Nat.le_of_succ_le_succ hlen) hpair.2]

theorem sortNumpy_perm (l : List DetectionResult) : (sortNumpy l).Perm l :=
  (List.reverse_perm _).trans (List.perm_insertionSort confLE l)

theorem sortNumpy_sorted (l : List DetectionResult) :
    (sortNumpy l).Pairwise (fun a b => b.confidence ≤ a.confidence) := by
  rw [sortNumpy, List.pairwise_reverse]
  exact List.sorted_insertionSort confLE l

theorem sortPy_perm (l : List DetectionResult) : (sortPy l).Perm l :=
  List.perm_insertionSort confGE l

theorem sortPy_sorted (l : List DetectionResult) :
    (sortPy l).Pairwise (fun a b => b.confidence ≤ a.confidence) :=
  List.sorted_insertionSort confGE l

theorem orderedInsert_of_none (a : DetectionResult) :
    ∀ (l : List DetectionResult), (∀ b ∈ l, ¬ confLE a b) →
      List.orderedInsert confLE a l = l ++ [a] := by
  intro l
  induction l with
  | nil => intro _; rfl
  | cons b rest ih =>
    intro h
    rw [List.orderedInsert, if_neg (h b (List.mem_cons_self b rest))]
    rw [ih (fun e he => h e (List.mem_cons_of_mem b he))]
    rfl

theorem insertionSort_of_strict_desc :
    ∀ (l : List DetectionResult),
      l.Pairwise (fun a b => b.confidence < a.confidence) →
      List.insertionSort confLE l = l.reverse := by
  intro l
  induction l with
  | nil => intro _; rfl
  | cons a rest ih =>
    intro h
    rw [List.pairwise_cons] at h
    rw [List.insertionSort, ih h.2]
    rw [orderedInsert_of_none a rest.reverse ?hnone]
    · rw [List.reverse_cons]
    · intro b hb
      have hb' : b ∈ rest := List.mem_reverse.mp hb
      exact not_le_of_lt (h.1 b hb')

theorem sortNumpy_of_strict_desc (l : List DetectionResult)
    (h : l.Pairwise (fun a b => b.confidence < a.confidence)) :
    sortNumpy l = l := by
  rw [sortNumpy, insertionSort_of_strict_desc l h, List.reverse_reverse]

/-- Claim C7: when no two detections of the input overlap above the
threshold, NMS keeps every detection, merely reordering them by
descending confidence. -/
theorem nms_no_overlap_preserves (D : List DetectionResult) (t : ℚ)
    (hno : D.Pairwise (fun a b => iou a b ≤ t)) :
    (nms D t).Perm D ∧
      (nms D t).Pairwise (fun a b => b.confidence ≤ a.confidence) := by
  by_cases hD : D = []
  · subst hD
    exact ⟨List.Perm.refl _, List.Pairwise.nil⟩
  · have hperm : (sortNumpy D).Perm D := sortNumpy_perm D
    have hsymm : ∀ {x y : DetectionResult}, iou x y ≤ t → iou y x ≤ t := by
      intro x y h
      rw [iou_comm]
      exact h
    have hpair : (sortNumpy D).Pairwise (fun a b => iou a b ≤ t) :=
      (hperm.pairwise_iff hsymm).mpr hno
    have heq : nms D t = sortNumpy D := by
      rw [nms, if_neg hD]
      exact nmsAux_eq_self t D.length (sortNumpy D) (le_of_eq hperm.length_eq) hpair
    rw [heq]
    exact ⟨hperm, sortNumpy_sorted D⟩

/-- Claim C7 (witness): two disjoint detections with distinct
confidences both survive NMS and come out sorted. -/
theorem nms_no_overlap_preserves_witness :
    (nms [detC, detD] (45 / 100)).Perm [detC, detD] ∧
      (nms [detC, detD] (45 / 100)).Pairwise
        (fun a b => b.confidence ≤ a.confidence) :=
  nms_no_overlap_preserves [detC, detD] (45 / 100) (by
    norm_num [List.pairwise_cons, iou, interArea, area, detC, detD])

/-- Claim C6 (counterexample): NMS is not idempotent as a function on
sequences, because the argsort-reverse order flips ties; two disjoint
equal-confidence detections come out in the opposite order on every
pass. -/
theorem nms_not_idempotent :
    nms (nms [detA, detB] (45 / 100)) (45 / 100) ≠ nms [detA, detB] (45 / 100) := by
  have h1 : nms [detA, detB] (45 / 100) = [detB, detA] := by
    rw [nms, if_neg (by decide)]
    norm_num [nmsAux, sortNumpy, List.insertionSort, List.orderedInsert,
      confLE, detA, detB, iou, interArea, area, List.filter]
  have h2 : nms [detB, detA] (45 / 100) = [detA, detB] := by
    rw [nms, if_neg (by decide)]
    norm_num [nmsAux, sortNumpy, List.insertionSort, List.orderedInsert,
      confLE, detA, detB, iou, interArea, area, List.filter]
  rw [h1, h2]
  decide

/-- Claim C6 (amended): NMS is idempotent on every detection list whose
confidences are pairwise distinct; with ties the surviving set is the
same but equal-confidence survivors are emitted in reversed order on
each pass. -/
theorem nms_idempotent_of_distinct (D : List DetectionResult) (t : ℚ)
    (hd : D.Pairwise (fun a b => a.confidence ≠ b.confidence)) :
    nms (nms D t) t = nms D t := by
  by_cases hD : D = []
  · subst hD
    rfl
  · have hReq : nms D t = nmsAux t D.length (sortNumpy D) := by
      rw [nms, if_neg hD]
    have hsub : (nms D t).Sublist (sortNumpy D) := by
      rw [hReq]
      exact nmsAux_sublist t D.length (sortNumpy D)
    have hpairR : (nms D t).Pairwise (fun a b => iou a b ≤ t) := by
      rw [hReq]
      exact nmsAux_pairwise t D.length (sortNumpy D)
    have hdesc : (sortNumpy D).Pairwise (fun a b => b.confidence ≤ a.confidence) :=
      sortNumpy_sorted D
    have hne : (sortNumpy D).Pairwise (fun a b => a.confidence ≠ b.confidence) :=
      ((sortNumpy_perm D).pairwise_iff (fun h => h.symm)).mpr hd
    have hstrict : (sortNumpy D).Pairwise
        (fun a b => b.confidence < a.confidence) :=
      (hdesc.and hne).imp (fun h => lt_of_le_of_ne h.1 (Ne.symm h.2))
    have hstrictR : (nms D t).Pairwise (fun a b => b.confidence < a.confidence) :=
      List.Pairwise.sublist hsub hstrict
    by_cases hR : nms D t = []
    · rw [hR]
      rfl
    · rw [nms, if_neg hR, sortNumpy_of_strict_desc _ hstrictR]
      exact nmsAux_eq_self t (nms D t).length (nms D t) le_rfl hpairR

/-- Claim C6 (witness): on two disjoint detections with distinct
confidences a second NMS pass changes nothing. -/
theorem nms_idempotent_of_distinct_witness :
    nms (nms [detC, detD] (45 / 100)) (45 / 100) = nms [detC, detD] (45 / 100) :=
  nms_idempotent_of_distinct [detC, detD] (45 / 100) (by
    norm_num [List.pairwise_cons, detC, detD])

/-! Box positivity of the two detection constructors. -/

theorem processRegion_bbox (W H : ℤ) (cfg : RetrievalConfig) (tax : Taxonomy)
    (scorer : String → String → ℚ) (r : RegionInput) (d : DetectionResult)
    (h : processRegion W H cfg tax scorer r = some d) :
    0 ≤ d.x ∧ 0 ≤ d.y ∧ 0 < d.w ∧ 0 < d.h := by
  simp only [processRegion, scoreRegion] at h
  by_cases hsize : min W (r.x + r.w) - max 0 r.x < 24 ∨
      min H (r.y + r.h) - max 0 r.y < 24
  · rw [if_pos hsize] at h
    cases h
  · rw [if_neg hsize] at h
    by_cases hacc : cfg.score_clip_w * r.clip_s + cfg.score_orb_w * r.orb_s +
        cfg.score_ocr_w * r.ocr_s < cfg.accept_score
    · rw [if_pos hacc] at h
      cases h
    · rw [if_neg hacc, Option.some.injEq] at h
      subst h
      push_neg at hsize
      refine ⟨?_, ?_, ?_, ?_⟩
      · show (0 : ℤ) ≤ max 0 r.x
        exact le_max_left _ _
      · show (0 : ℤ) ≤ max 0 r.y
        exact le_max_left _ _
      · show (0 : ℤ) < min W (r.x + r.w) - max 0 r.x
        linarith [hsize.1]
      · show (0 : ℤ) < min H (r.y + r.h) - max 0 r.y
        linarith [hsize.2]

theorem normalize_detection_bbox (ct : ℚ) (tax : LlmTaxonomy)
    (scorer : String → String → ℚ) (rawName : String) (bx bY bw bh : ℤ)
    (conf : ℚ) (W H : ℤ) (d : DetectionResult)
    (h : normalize_detection ct tax scorer rawName bx bY bw bh conf W H = some d) :
    0 ≤ d.x ∧ 0 ≤ d.y ∧ 0 < d.w ∧ 0 < d.h := by
  simp only [normalize_detection] at h
  by_cases hc : conf < ct
  · rw [if_pos hc] at h
    cases h
  · rw [if_neg hc, Option.some.injEq] at h
    subst h
    refine ⟨?_, ?_, ?_, ?_⟩
    · show (0 : ℤ) ≤ max 0 (min bx W)
      exact le_max_left _ _
    · show (0 : ℤ) ≤ max 0 (min bY H)
      exact le_max_left _ _
    · show (0 : ℤ) < max 1 (min bw (W - max 0 (min bx W)))
      exact lt_of_lt_of_le zero_lt_one (le_max_left _ _)
    · show (0 : ℤ) < max 1 (min bh (H - max 0 (min bY H)))
      exact lt_of_lt_of_le zero_lt_one (le_max_left _ _)

/-- Claim C9: every detection produced by the CLIP pipeline's region
loop, through NMS and the final sort, and every detection produced by
the LLM pipeline's normalization, has a non-negative box origin and
strictly positive width and height. -/
theorem detections_bbox_positive :
    (∀ (W H : ℤ) (cfg : RetrievalConfig) (thr : ℚ) (tax : Taxonomy)
        (scorer : String → String → ℚ) (regions : List RegionInput)
        (d : DetectionResult), d ∈ analyze_image W H cfg thr tax scorer regions →
        0 ≤ d.x ∧ 0 ≤ d.y ∧ 0 < d.w ∧ 0 < d.h) ∧
    (∀ (ct : ℚ) (tax : LlmTaxonomy) (scorer : String → String → ℚ)
        (rawName : String) (bx bY bw bh : ℤ) (conf : ℚ) (W H : ℤ)
        (d : DetectionResult),
        normalize_detection ct tax scorer rawName bx bY bw bh conf W H = some d →
        0 ≤ d.x ∧ 0 ≤ d.y ∧ 0 < d.w ∧ 0 < d.h) := by
  constructor
  · intro W H cfg thr tax scorer regions d hd
    simp only [analyze_image] at hd
    by_cases hdets : regions.filterMap (processRegion W H cfg tax scorer) = []
    · rw [if_pos hdets, hdets] at hd
      exact absurd hd (List.not_mem_nil d)
    · rw [if_neg hdets] at hd
      have h1 : d ∈ nms (regions.filterMap (processRegion W H cfg tax scorer)) thr :=
        (sortPy_perm _).subset hd
      have h2 : d ∈ regions.filterMap (processRegion W H cfg tax scorer) := by
        rw [nms, if_neg hdets] at h1
        exact (sortNumpy_perm _).subset ((nmsAux_sublist thr _ _).subset h1)
      obtain ⟨r, _, hpr⟩ := List.mem_filterMap.mp h2
      exact processRegion_bbox W H cfg tax scorer r d hpr
  · intro ct tax scorer rawName bx bY bw bh conf W H d h
    exact normalize_detection_bbox ct tax scorer rawName bx bY bw bh conf W H d h

/-- Claim C9 (witness): a concrete LLM detection passes the clamping
stage with a non-negative origin and positive extent. -/
theorem detections_bbox_positive_witness :
    (0 : ℤ) ≤ max 0 (min 5 100) ∧ (0 : ℤ) ≤ max 0 (min 5 100) ∧
    (0 : ℤ) < max 1 (min 10 (100 - max 0 (min 5 100))) ∧
    (0 : ℤ) < max 1 (min 10 (100 - max 0 (min 5 100))) :=
  detections_bbox_positive.2 0 exLlmTax eqScorer ("EC2") 5 5 10 10 1 100 100
    ⟨max 0 (min 5 100), max 0 (min 5 100),
     max 1 (min 10 (100 - max 0 (min 5 100))),
     max 1 (min 10 (100 - max 0 (min 5 100))),
     (exLlmTax.normalize eqScorer (pyStrip ("EC2"))).1,
     round4 (min 1 (exLlmTax.normalize eqScorer (pyStrip ("EC2"))).2),
     (exLlmTax.normalize eqScorer (pyStrip ("EC2"))).1⟩
    (by
      simp only [normalize_detection]
      rw [if_neg (by norm_num)])

/-! Character-level lemmas for the canonicalization pipeline. -/

theorem char_toNat_inj {c d : Char} (h : c.toNat = d.toNat) : c = d :=
  Char.ext (UInt32.ext h)

theorem lowerChar_toNat (c : Char) :
    (lowerChar c).toNat =
      if 65 ≤ c.toNat ∧ c.toNat ≤ 90 then c.toNat + 32 else c.toNat := by
  unfold lowerChar
  by_cases h : 65 ≤ c.toNat ∧ c.toNat ≤ 90
  · rw [if_pos h, if_pos h, Char.ofNat, dif_pos (Or.inl (by omega))]
    rfl
  · rw [if_neg h, if_neg h]

theorem lowerChar_eq_self (c : Char) (h : ¬(65 ≤ c.toNat ∧ c.toNat ≤ 90)) :
    lowerChar c = c := by
  unfold lowerChar
  rw [if_neg h]

theorem lowerChar_idem (c : Char) : lowerChar (lowerChar c) = lowerChar c := by
  by_cases h : 65 ≤ c.toNat ∧ c.toNat ≤ 90
  · apply lowerChar_eq_self
    rw [lowerChar_toNat, if_pos h]
    omega
  · rw [lowerChar_eq_self c h]
    exact lowerChar_eq_self c h

theorem isWs_iff (c : Char) :
    isWs c = true ↔ (c.toNat = 32 ∨ c.toNat = 9 ∨ c.toNat = 10 ∨ c.toNat = 13) := by
  unfold isWs
  rw [decide_eq_true_eq]
  constructor
  · rintro (h | h | h | h) <;> (subst h; simp)
  · rintro (h | h | h | h)
    · exact Or.inl (char_toNat_inj h)
    · exact Or.inr (Or.inl (char_toNat_inj h))
    · exact Or.inr (Or.inr (Or.inl (char_toNat_inj h)))
    · exact Or.inr (Or.inr (Or.inr (char_toNat_inj h)))

theorem isWs_eq_false_of_ge (d : Char) (hd : 65 ≤ d.toNat) : isWs d = false := by
  cases hb : isWs d with
  | false => rfl
  | true =>
    exfalso
    rcases (isWs_iff d).mp hb with h | h | h | h <;> omega

theorem isWs_lowerChar (c : Char) : isWs (lowerChar c) = isWs c := by
  by_cases h : 65 ≤ c.toNat ∧ c.toNat ≤ 90
  · have h1 : (lowerChar c).toNat = c.toNat + 32 := by
      rw [lowerChar_toNat, if_pos h]
    rw [isWs_eq_false_of_ge c h.1, isWs_eq_false_of_ge (lowerChar c) (by omega)]
  · rw [lowerChar_eq_self c h]

theorem isSpecial_iff (c : Char) :
    isSpecial c = true ↔ (c.toNat = 38 ∨ c.toNat = 8211 ∨ c.toNat = 8212 ∨
      c.toNat = 45 ∨ c.toNat = 95 ∨ c.toNat = 47) := by
  unfold isSpecial
  rw [decide_eq_true_eq]
  constructor
  · rintro (h | h | h | h | h | h) <;> (subst h; simp)
  · rintro (h | h | h | h | h | h)
    · exact Or.inl (char_toNat_inj h)
    · exact Or.inr (Or.inl (char_toNat_inj h))
    · exact Or.inr (Or.inr (Or.inl (char_toNat_inj h)))
    · exact Or.inr (Or.inr (Or.inr (Or.inl (char_toNat_inj h))))
    · exact Or.inr (Or.inr (Or.inr (Or.inr (Or.inl (char_toNat_inj h)))))
    · exact Or.inr (Or.inr (Or.inr (Or.inr (Or.inr (char_toNat_inj h)))))

theorem isSpecial_eq_false_of_range (d : Char) (h1 : 65 ≤ d.toNat)
    (h2 : d.toNat ≤ 122) (h3 : d.toNat ≠ 95) : isSpecial d = false := by
  cases hb : isSpecial d with
  | false => rfl
  | true =>
    exfalso
    rcases (isSpecial_iff d).mp hb with h | h | h | h | h | h <;> omega

theorem isSpecial_lowerChar (c : Char) : isSpecial (lowerChar c) = isSpecial c := by
  by_cases h : 65 ≤ c.toNat ∧ c.toNat ≤ 90
  · have h1 : (lowerChar c).toNat = c.toNat + 32 := by
      rw [lowerChar_toNat, if_pos h]
    rw [isSpecial_eq_false_of_range c h.1 (by omega) (by omega),
      isSpecial_eq_false_of_range (lowerChar c) (by omega) (by omega) (by omega)]
  · rw [lowerChar_eq_self c h]

theorem lowerChar_space : lowerChar ' ' = ' ' := by decide

theorem lowerL_append (a b : List Char) : lowerL (a ++ b) = lowerL a ++ lowerL b :=
  List.map_append lowerChar a b

theorem lowerL_idem (l : List Char) : lowerL (lowerL l) = lowerL l := by
  induction l with
  | nil => rfl
  | cons c cs ih =>
    show lowerChar (lowerChar c) :: lowerL (lowerL cs) = lowerChar c :: lowerL cs
    rw [lowerChar_idem, ih]

theorem lowerL_ne_nil (l : List Char) (h : l ≠ []) : lowerL l ≠ [] := by
  intro hc
  exact h (List.map_eq_nil_iff.mp hc)

/-! Lemmas about joinSp, splitWs, collapseWs and trimL. -/

theorem joinSp_cons (t : List Char) (ts : List (List Char)) (h : ts ≠ []) :
    joinSp (t :: ts) = t ++ ' ' :: joinSp ts := by
  cases ts with
  | nil => exact absurd rfl h
  | cons t2 ts2 => rfl

theorem lowerL_joinSp (ts : List (List Char)) :
    lowerL (joinSp ts) = joinSp (ts.map lowerL) := by
  induction ts with
  | nil => rfl
  | cons t ts ih =>
    cases ts with
    | nil => rfl
    | cons t2 ts2 =>
      show lowerL (t ++ ' ' :: joinSp (t2 :: ts2)) =
        lowerL t ++ ' ' :: joinSp ((t2 :: ts2).map lowerL)
      rw [lowerL_append]
      show lowerL t ++ lowerChar ' ' :: lowerL (joinSp (t2 :: ts2)) = _
      rw [lowerChar_space, ih]

theorem joinSp_ne_nil (t : List Char) (ts : List (List Char)) (h : t ≠ []) :
    joinSp (t :: ts) ≠ [] := by
  cases ts with
  | nil => exact h
  | cons t2 ts2 =>
    show t ++ ' ' :: joinSp (t2 :: ts2) ≠ []
    cases t with
    | nil => exact absurd rfl h
    | cons c cs => simp

theorem joinSp_head (t : List Char) (ts : List (List Char)) (h : t ≠ []) :
    (joinSp (t :: ts)).head? = t.head? := by
  cases t with
  | nil => exact absurd rfl h
  | cons c cs =>
    cases ts with
    | nil => rfl
    | cons t2 ts2 => rfl

theorem mem_joinSp (ts : List (List Char)) (c : Char) (hc : c ∈ joinSp ts) :
    c = ' ' ∨ ∃ tk ∈ ts, c ∈ tk := by
  induction ts with
  | nil => cases hc
  | cons t ts ih =>
    cases ts with
    | nil =>
      right
      exact ⟨t, List.mem_singleton_self t, hc⟩
    | cons t2 ts2 =>
      have hc' : c ∈ t ++ ' ' :: joinSp (t2 :: ts2) := hc
      rcases List.mem_append.mp hc' with h | h
      · right
        exact ⟨t, List.mem_cons_self t _, h⟩
      · rcases List.mem_cons.mp h with h | h
        · left; exact h
        · rcases ih h with h | ⟨tk, htk, hctk⟩
          · left; exact h
          · right
            exact ⟨tk, List.mem_cons_of_mem t htk, hctk⟩

theorem joinSp_getLast_nonws :
    ∀ (ts : List (List Char)),
      (∀ tk ∈ ts, tk ≠ [] ∧ ∀ c ∈ tk, isWs c = false) →
      ∀ c, (joinSp ts).getLast? = some c → isWs c = false := by
  intro ts
  induction ts with
  | nil => intro _ c hc; cases hc
  | cons t ts ih =>
    intro hts c hc
    cases ts with
    | nil =>
      have hmem : c ∈ t := List.mem_of_mem_getLast? hc
      exact (hts t (List.mem_singleton_self t)).2 c hmem
    | cons t2 ts2 =>
      have hjoin_ne : joinSp (t2 :: ts2) ≠ [] :=
        joinSp_ne_nil t2 ts2 (hts t2 (by simp)).1
      have hc' : (t ++ ' ' :: joinSp (t2 :: ts2)).getLast? = some c := hc
      rw [List.getLast?_append_of_ne_nil t (by simp)] at hc'
      have hc'' : (joinSp (t2 :: ts2)).getLast? = some c := by
        cases hjs : joinSp (t2 :: ts2) with
        | nil => exact absurd hjs hjoin_ne
        | cons d ds =>
          rw [hjs] at hc'
          rw [List.getLast?_cons_cons] at hc'
          exact hc'
      exact ih (fun tk htk => hts tk (List.mem_cons_of_mem t htk)) c hc''

theorem splitWsGo_facts :
    ∀ (l acc : List Char), (∀ c ∈ acc, isWs c = false) →
      ∀ tk ∈ splitWsGo l acc,
        tk ≠ [] ∧ ∀ c ∈ tk, isWs c = false ∧ (c ∈ l ∨ c ∈ acc) := by
  intro l
  induction l with
  | nil =>
    intro acc hacc tk htk
    by_cases ha : acc = []
    · rw [splitWsGo, if_pos ha] at htk
      cases htk
    · rw [splitWsGo, if_neg ha] at htk
      rw [List.mem_singleton] at htk
      subst htk
      refine ⟨fun hrev => ha (List.reverse_eq_nil_iff.mp hrev), ?_⟩
      intro c hc
      have := hacc c (List.mem_reverse.mp hc)
      exact ⟨this, Or.inr (List.mem_reverse.mp hc)⟩
  | cons d ds ih =>
    intro acc hacc tk htk
    by_cases hd : isWs d = true
    · by_cases ha : acc = []
      · rw [splitWsGo] at htk
        rw [hd] at htk
        simp only [if_true, ha, if_pos] at htk
        have := ih [] (by intro c hc; cases hc) tk htk
        refine ⟨this.1, ?_⟩
        intro c hc
        rcases (this.2 c hc) with ⟨h1, h2 | h2⟩
        · exact ⟨h1, Or.inl (List.mem_cons_of_mem d h2)⟩
        · cases h2
      · rw [splitWsGo] at htk
        rw [hd] at htk
        simp only [if_true, if_neg ha] at htk
        rcases List.mem_cons.mp htk with h | h
        · subst h
          refine ⟨fun hrev => ha (List.reverse_eq_nil_iff.mp hrev), ?_⟩
          intro c hc
          have := hacc c (List.mem_reverse.mp hc)
          exact ⟨this, Or.inr (List.mem_reverse.mp hc)⟩
        · have := ih [] (by intro c hc; cases hc) tk h
          refine ⟨this.1, ?_⟩
          intro c hc
          rcases (this.2 c hc) with ⟨h1, h2 | h2⟩
          · exact ⟨h1, Or.inl (List.mem_cons_of_mem d h2)⟩
          · cases h2
    · rw [splitWsGo] at htk
      rw [Bool.not_eq_true] at hd
      rw [hd] at htk
      simp only [Bool.false_eq_true, if_false] at htk
      have hacc' : ∀ c ∈ d :: acc, isWs c = false := by
        intro c hc
        rcases List.mem_cons.mp hc with h | h
        · subst h; exact hd
        · exact hacc c h
      have := ih (d :: acc) hacc' tk htk
      refine ⟨this.1, ?_⟩
      intro c hc
      rcases (this.2 c hc) with ⟨h1, h2 | h2⟩
      · exact ⟨h1, Or.inl (List.mem_cons_of_mem d h2)⟩
      · rcases List.mem_cons.mp h2 with h3 | h3
        · exact ⟨h1, Or.inl (h3 ▸ List.mem_cons_self d ds)⟩
        · exact ⟨h1, Or.inr h3⟩

theorem splitWs_facts (l : List Char) :
    ∀ tk ∈ splitWs l, tk ≠ [] ∧ ∀ c ∈ tk, isWs c = false ∧ c ∈ l := by
  intro tk htk
  have := splitWsGo_facts l [] (by intro c hc; cases hc) tk htk
  refine ⟨this.1, ?_⟩
  intro c hc
  rcases this.2 c hc with ⟨h1, h2 | h2⟩
  · exact ⟨h1, h2⟩
  · cases h2

theorem splitWsGo_append_wsfree :
    ∀ (t rest acc : List Char), (∀ c ∈ t, isWs c = false) →
      splitWsGo (t ++ rest) acc = splitWsGo rest (t.reverse ++ acc) := by
  intro t
  induction t with
  | nil => intro rest acc _; rfl
  | cons c t' ih =>
    intro rest acc h
    have hc : isWs c = false := h c (List.mem_cons_self c t')
    show splitWsGo (c :: (t' ++ rest)) acc = _
    rw [splitWsGo, hc]
    simp only [Bool.false_eq_true, if_false]
    rw [ih rest (c :: acc) (fun e he => h e (List.mem_cons_of_mem c he))]
    rw [List.reverse_cons, List.append_assoc]
    rfl

theorem splitWs_single (t : List Char) (hne : t ≠ [])
    (hws : ∀ c ∈ t, isWs c = false) : splitWs t = [t] := by
  have h1 : splitWs t = splitWsGo (t ++ []) [] := by rw [List.append_nil]; rfl
  rw [h1, splitWsGo_append_wsfree t [] [] hws]
  rw [splitWsGo, if_neg (by simp [hne])]
  simp

theorem splitWs_joinSp :
    ∀ (ts : List (List Char)),
      (∀ tk ∈ ts, tk ≠ [] ∧ ∀ c ∈ tk, isWs c = false) →
      splitWs (joinSp ts) = ts := by
  intro ts
  induction ts with
  | nil => intro _; rfl
  | cons t ts ih =>
    intro hts
    cases ts with
    | nil =>
      exact splitWs_single t (hts t (List.mem_singleton_self t)).1
        (hts t (List.mem_singleton_self t)).2
    | cons t2 ts2 =>
      show splitWsGo (t ++ ' ' :: joinSp (t2 :: ts2)) [] = t :: t2 :: ts2
      rw [splitWsGo_append_wsfree t _ [] (hts t (List.mem_cons_self t _)).2]
      rw [splitWsGo]
      rw [show isWs ' ' = true from by decide]
      simp only [if_true, List.append_nil]
      rw [if_neg (by
        intro hrev
        exact (hts t (List.mem_cons_self t _)).1 (List.reverse_eq_nil_iff.mp hrev))]
      rw [List.reverse_reverse]
      have := ih (fun tk htk => hts tk (List.mem_cons_of_mem t htk))
      rw [show splitWsGo (joinSp (t2 :: ts2)) [] = splitWs (joinSp (t2 :: ts2)) from rfl]
      rw [this]

theorem collapse_cons_nonws (c : Char) (l : List Char) (h : isWs c = false) :
    collapseWs (c :: l) = c :: collapseWs l := by
  cases l with
  | nil =>
    show (if isWs c = true then [' '] else [c]) = c :: collapseWs []
    rw [h]
    rfl
  | cons d r =>
    show (if (isWs c && isWs d) = true then collapseWs (d :: r)
      else (if isWs c = true then ' ' else c) :: collapseWs (d :: r)) = _
    rw [h]
    simp only [Bool.false_and, Bool.false_eq_true, if_false]

theorem collapse_space_cons (l : List Char)
    (h : ∀ d cs, l = d :: cs → isWs d = false) :
    collapseWs (' ' :: l) = ' ' :: collapseWs l := by
  cases l with
  | nil =>
    show (if isWs ' ' = true then [' '] else [' ']) = ' ' :: collapseWs []
    rw [show isWs ' ' = true from by decide]
    rfl
  | cons d r =>
    show (if (isWs ' ' && isWs d) = true then collapseWs (d :: r)
      else (if isWs ' ' = true then ' ' else ' ') :: collapseWs (d :: r)) = _
    rw [h d r rfl]
    simp

theorem collapse_token_chunk :
    ∀ (t rest : List Char), (∀ c ∈ t, isWs c = false) →
      collapseWs (t ++ rest) = t ++ collapseWs rest := by
  intro t
  induction t with
  | nil => intro rest _; rfl
  | cons c t' ih =>
    intro rest h
    show collapseWs (c :: (t' ++ rest)) = c :: (t' ++ collapseWs rest)
    rw [collapse_cons_nonws c _ (h c (List.mem_cons_self c t'))]
    rw [ih rest (fun e he => h e (List.mem_cons_of_mem c he))]

theorem collapse_joinSp :
    ∀ (ts : List (List Char)),
      (∀ tk ∈ ts, tk ≠ [] ∧ ∀ c ∈ tk, isWs c = false) →
      collapseWs (joinSp ts) = joinSp ts := by
  intro ts
  induction ts with
  | nil => intro _; rfl
  | cons t ts ih =>
    intro hts
    cases ts with
    | nil =>
      show collapseWs (joinSp [t]) = joinSp [t]
      have := collapse_token_chunk t [] (hts t (List.mem_singleton_self t)).2
      rw [List.append_nil] at this
      show collapseWs t = t
      rw [this]
      exact List.append_nil t
    | cons t2 ts2 =>
      show collapseWs (t ++ ' ' :: joinSp (t2 :: ts2)) = t ++ ' ' :: joinSp (t2 :: ts2)
      rw [collapse_token_chunk t _ (hts t (List.mem_cons_self t _)).2]
      rw [collapse_space_cons (joinSp (t2 :: ts2)) ?hhead]
      case hhead =>
        intro d cs hdc
        have hh := joinSp_head t2 ts2 (hts t2 (by simp)).1
        rw [hdc] at hh
        cases ht2 : t2 with
        | nil => exact absurd ht2 (hts t2 (by simp)).1
        | cons e es =>
          rw [ht2] at hh
          simp only [List.head?_cons, Option.some.injEq] at hh
          subst hh
          exact (hts t2 (by simp)).2 d (by rw [ht2]; exact List.mem_cons_self _ _)
      rw [ih (fun tk htk => hts tk (List.mem_cons_of_mem t htk))]

theorem dropWhile_eq_self_of_head (l : List Char)
    (h : ∀ d cs, l = d :: cs → isWs d = false) : l.dropWhile isWs = l := by
  cases l with
  | nil => rfl
  | cons d cs =>
    rw [List.dropWhile_cons, h d cs rfl]
    simp

theorem trim_joinSp (ts : List (List Char))
    (hts : ∀ tk ∈ ts, tk ≠ [] ∧ ∀ c ∈ tk, isWs c = false) :
    trimL (joinSp ts) = joinSp ts := by
  unfold trimL
  have h1 : (joinSp ts).dropWhile isWs = joinSp ts := by
    apply dropWhile_eq_self_of_head
    intro d cs hdc
    cases ts with
    | nil => cases hdc
    | cons t ts' =>
      have hh := joinSp_head t ts' (hts t (List.mem_cons_self t ts')).1
      rw [hdc] at hh
      cases ht : t with
      | nil => exact absurd ht (hts t (List.mem_cons_self t ts')).1
      | cons e es =>
        rw [ht] at hh
        simp only [List.head?_cons, Option.some.injEq] at hh
        subst hh
        exact (hts t (List.mem_cons_self t ts')).2 d
          (by rw [ht]; exact List.mem_cons_self _ _)
  rw [h1]
  have h2 : (joinSp ts).reverse.dropWhile isWs = (joinSp ts).reverse := by
    apply dropWhile_eq_self_of_head
    intro d cs hdc
    have hlast : (joinSp ts).getLast? = some d := by
      rw [← List.head?_reverse, hdc]
      rfl
    exact joinSp_getLast_nonws ts hts d hlast
  rw [h2, List.reverse_reverse]

/-! Lemmas about replaceChars and the token phase of canon. -/

theorem replaceChars_noSpecial (l : List Char) :
    ∀ c ∈ replaceChars l, isSpecial c = false := by
  induction l with
  | nil => intro c hc; cases hc
  | cons d ds ih =>
    intro c hc
    by_cases h1 : d = '&'
    · rw [replaceChars, if_pos h1] at hc
      rcases List.mem_cons.mp hc with h | h
      · subst h; decide
      · rcases List.mem_cons.mp h with h | h
        · subst h; decide
        · rcases List.mem_cons.mp h with h | h
          · subst h; decide
          · exact ih c h
    · by_cases h2 : d = '–' ∨ d = '—' ∨ d = '-' ∨ d = '_' ∨ d = '/'
      · rw [replaceChars, if_neg h1, if_pos h2] at hc
        rcases List.mem_cons.mp hc with h | h
        · subst h; decide
        · exact ih c h
      · rw [replaceChars, if_neg h1, if_neg h2] at hc
        rcases List.mem_cons.mp hc with h | h
        · subst h
          unfold isSpecial
          rw [decide_eq_false_iff_not]
          intro hd
          rcases hd with hd | hd
          · exact h1 hd
          · exact h2 hd
        · exact ih c h

theorem replaceChars_eq_self (l : List Char)
    (h : ∀ c ∈ l, isSpecial c = false) : replaceChars l = l := by
  induction l with
  | nil => rfl
  | cons d ds ih =>
    have hd : isSpecial d = false := h d (List.mem_cons_self d ds)
    rw [isSpecial] at hd
    rw [decide_eq_false_iff_not] at hd
    rw [replaceChars, if_neg (fun hc => hd (Or.inl hc)),
      if_neg (fun hc => hd (Or.inr hc))]
    rw [ih (fun c hc => h c (List.mem_cons_of_mem d hc))]

theorem canonTokens_facts (drop : List (List Char)) (l : List Char) :
    ∀ tk ∈ canonTokens drop l,
      tk ≠ [] ∧ (∀ c ∈ tk, isWs c = false) ∧ (∀ c ∈ tk, isSpecial c = false) ∧
      ¬(lowerL tk ∈ drop) := by
  intro tk htk
  unfold canonTokens at htk
  have hmem := List.mem_filter.mp htk
  have hsplit := splitWs_facts _ tk hmem.1
  refine ⟨hsplit.1, fun c hc => (hsplit.2 c hc).1, ?_, ?_⟩
  · intro c hc
    exact replaceChars_noSpecial _ c (hsplit.2 c hc).2
  · have hb := hmem.2
    rw [Bool.not_eq_true'] at hb
    exact of_decide_eq_false hb

theorem canonList_eq (drop : List (List Char)) (l : List Char) :
    canonList drop l = joinSp ((canonTokens drop l).map lowerL) := by
  unfold canonList
  have hfacts := canonTokens_facts drop l
  have htoks : ∀ tk ∈ canonTokens drop l, tk ≠ [] ∧ ∀ c ∈ tk, isWs c = false :=
    fun tk h => ⟨(hfacts tk h).1, (hfacts tk h).2.1⟩
  rw [collapse_joinSp _ htoks, trim_joinSp _ htoks, lowerL_joinSp]

/-- Claim C3 (counterexample): canonicalization is not idempotent; a
doubled vendor prefix is stripped once per pass, so the canonical form
of the example changes again under a second canonicalization. -/
theorem canon_not_idempotent :
    canon (canon ("amazon amazon s3")) ≠ canon ("amazon amazon s3") := by decide

set_option maxHeartbeats 1600000 in
/-- Claim C3 (amended): canonicalization is idempotent on every string
whose canonical form is already free of a leading amazon-or-aws word
and of a matching parenthesized block; the two hypotheses state that
the paren-strip and the vendor-word-strip leave the canonical form
unchanged, and each is necessary since either phase can re-fire on a
canonical form (a doubled vendor prefix, or a paren pair rejoined
across a newline). -/
theorem canon_idempotent_of_fixed (drop : List (List Char)) (s : String)
    (h1 : stripParens (canonWith drop s).data.length (canonWith drop s).data =
      (canonWith drop s).data)
    (h2 : stripAwsPfx (canonWith drop s).data = (canonWith drop s).data) :
    canonWith drop (canonWith drop s) = canonWith drop s := by
  have hdata : (canonWith drop s).data = canonList drop s.data := rfl
  have hfacts := canonTokens_facts drop s.data
  have hmapfacts : ∀ tk ∈ (canonTokens drop s.data).map lowerL,
      tk ≠ [] ∧ ∀ c ∈ tk, isWs c = false := by
    intro tk htk
    obtain ⟨tk0, htk0, rfl⟩ := List.mem_map.mp htk
    refine ⟨lowerL_ne_nil tk0 (hfacts tk0 htk0).1, ?_⟩
    intro c hc
    obtain ⟨c0, hc0, rfl⟩ := List.mem_map.mp hc
    rw [isWs_lowerChar]
    exact (hfacts tk0 htk0).2.1 c0 hc0
  have hjoin : (canonWith drop s).data =
      joinSp ((canonTokens drop s.data).map lowerL) := by
    rw [hdata, canonList_eq]
  have hspec : ∀ c ∈ (canonWith drop s).data, isSpecial c = false := by
    intro c hc
    rw [hjoin] at hc
    rcases mem_joinSp _ c hc with h | ⟨tk, htk, hctk⟩
    · subst h; decide
    · obtain ⟨tk0, htk0, rfl⟩ := List.mem_map.mp htk
      obtain ⟨c0, hc0, rfl⟩ := List.mem_map.mp hctk
      rw [isSpecial_lowerChar]
      exact (hfacts tk0 htk0).2.2.1 c0 hc0
  have htokens2 : canonTokens drop (canonWith drop s).data =
      (canonTokens drop s.data).map lowerL := by
    unfold canonTokens
    rw [h1, h2, replaceChars_eq_self _ hspec]
    rw [hjoin, splitWs_joinSp _ hmapfacts]
    apply List.filter_eq_self.mpr
    intro tk htk
    obtain ⟨tk0, htk0, rfl⟩ := List.mem_map.mp htk
    rw [Bool.not_eq_eq_eq_not, Bool.not_true]
    rw [decide_eq_false_iff_not]
    rw [lowerL_idem]
    exact (hfacts tk0 htk0).2.2.2
  have hfinal : canonList drop (canonWith drop s).data = (canonWith drop s).data := by
    rw [canonList_eq, htokens2, hjoin]
    congr 1
    rw [List.map_map]
    apply List.map_congr_left
    intro tk _
    show lowerL (lowerL tk) = lowerL tk
    exact lowerL_idem tk
  show String.mk (canonList drop (canonWith drop s).data) = canonWith drop s
  rw [hfinal]

/-- Claim C3 (witness): a string whose canonical form is free of both a
vendor prefix and a parenthesized block is a fixed point of a second
canonicalization. -/
theorem canon_idempotent_of_fixed_witness :
    canonWith mapperDropWords (canonWith mapperDropWords ("Amazon S3 (Standard)")) =
      canonWith mapperDropWords ("Amazon S3 (Standard)") :=
  canon_idempotent_of_fixed mapperDropWords ("Amazon S3 (Standard)") (by decide)
    (by decide)

end ArchLens
